import Mathlib

/-!
A shallow embedding of `src/im2col.py` (rioyokotalab/im2col).

Modelling conventions:
* The code is Python 2 (see `src/reader.py`: `cPickle`, text-mode pickle
  reads), so `/` on integers is floor division and `%` the matching
  modulus; both are modelled on `ℕ` (all quantities involved are
  non-negative under the preconditions of the theorems below, which
  include `R ≤ H + 2*padding_h` and `S ≤ W + 2*padding_w` so that the
  `ℕ`-truncated subtractions agree with Python's integer subtraction).
* 1-D numpy integer arrays are modelled as `List ℕ`, 2-D index arrays as
  `List (List ℕ)`; `np.repeat`, `np.tile` and `np.arange` are modelled
  directly on lists.
* 4-D value tensors are modelled as a shape together with an entry
  function `ℕ → ℕ → ℕ → ℕ → ℤ`; 2-D value matrices as `List (List ℤ)`
  (row-major).
* `assert` failures (AssertionError) are modelled by `Option`: a raising
  call returns `none`.
* The in-place fancy-indexed add `x[idx] += v` is modelled faithfully to
  numpy: the right-hand side is gathered from the buffer before any
  write, and the buffered result is then scatter-assigned, duplicate
  indices being resolved by the last write in iteration order (numpy
  does not accumulate duplicate indices for `+=`; that would require
  `np.add.at`).
-/

namespace Im2col

/-- Model of `np.repeat(xs, m)`: every element of `xs` repeated `m` times in place. -/
def npRepeat (xs : List ℕ) (m : ℕ) : List ℕ :=
  xs.flatMap fun x => List.replicate m x

/-- Model of `np.tile(xs, m)`: the whole list `xs` repeated `m` times. -/
def npTile (xs : List ℕ) (m : ℕ) : List ℕ :=
  (List.replicate m xs).flatten

/-- Model of `np.arange(n)` for a non-negative integer bound. -/
def npArange (n : ℕ) : List ℕ :=
  List.range n

/-- Output height `P = (H - R + 2 * padding_h) / stride_h + 1`
(`get_im2col_indices`, line 130 of `src/im2col.py`). -/
def outP (H R ph sh : ℕ) : ℕ :=
  (H + 2 * ph - R) / sh + 1

/-- Output width `Q = (W - S + 2 * padding_w) / stride_w + 1`
(`get_im2col_indices`, line 131 of `src/im2col.py`). -/
def outQ (W S pw sw : ℕ) : ℕ :=
  (W + 2 * pw - S) / sw + 1

/-- The triple `(k, i, j)` returned by `get_im2col_indices`: `k` is the
column vector of channel indices (stored flat; its numpy shape is
`(C*R*S, 1)`), `i` and `j` the broadcast 2-D row/column index arrays. -/
structure Im2colIdx where
  k : List ℕ
  i : List (List ℕ)
  j : List (List ℕ)
deriving DecidableEq, Repr

/-- Source line `i0 = np.tile(np.repeat(np.arange(R), S), C)` (lines 133-134). -/
def i0Idx (C R S : ℕ) : List ℕ :=
  npTile (npRepeat (npArange R) S) C

/-- Source line `i1 = stride_h * np.repeat(np.arange(P), Q)` (line 135). -/
def i1Idx (P Q sh : ℕ) : List ℕ :=
  (npRepeat (npArange P) Q).map fun t => sh * t

/-- Source line `j0 = np.tile(np.arange(S), R * C)` (line 136). -/
def j0Idx (C R S : ℕ) : List ℕ :=
  npTile (npArange S) (R * C)

/-- Source line `j1 = stride_w * np.tile(np.arange(Q), P)` (line 137). -/
def j1Idx (P Q sw : ℕ) : List ℕ :=
  (npTile (npArange Q) P).map fun t => sw * t

/-- Source line `i = i0.reshape(-1, 1) + i1.reshape(1, -1)` (line 139): the
broadcast outer sum, row `a` being `i0[a] + i1`. -/
def iIdx (C R S P Q sh : ℕ) : List (List ℕ) :=
  (i0Idx C R S).map fun a => (i1Idx P Q sh).map fun b => a + b

/-- Source line `j = j0.reshape(-1, 1) + j1.reshape(1, -1)` (line 140). -/
def jIdx (C R S P Q sw : ℕ) : List (List ℕ) :=
  (j0Idx C R S).map fun a => (j1Idx P Q sw).map fun b => a + b

/-- Source line `k = np.repeat(np.arange(C), R * S).reshape(-1, 1)` (line 142),
stored flat. -/
def kIdx (C R S : ℕ) : List ℕ :=
  npRepeat (npArange C) (R * S)

/-- Model of `get_im2col_indices(x_shape, filters_shape, stride_h, stride_w,
padding_h, padding_w)` (lines 123-144 of `src/im2col.py`).

The two `assert` statements are modelled by the `if`: a failing assert
returns `none`.  Note that the second assert of the source checks
`(H - S + 2 * padding_w) % stride_w == 0` — it reads `H`, not `W`. -/
def get_im2col_indices (x_shape : ℕ × ℕ × ℕ × ℕ) (filters_shape : ℕ × ℕ × ℕ × ℕ)
    (stride_h stride_w padding_h padding_w : ℕ) : Option Im2colIdx :=
  match x_shape, filters_shape with
  | (_N, C, H, W), (_, _, R, S) =>
    if (H + 2 * padding_h - R) % stride_h = 0 ∧ (H + 2 * padding_w - S) % stride_w = 0 then
      let P := outP H R padding_h stride_h
      let Q := outQ W S padding_w stride_w
      some ⟨kIdx C R S, iIdx C R S P Q stride_h, jIdx C R S P Q stride_w⟩
    else none

/-- A 4-D numpy tensor: a shape together with an entry function (entries
outside the shape are irrelevant; every access in the model is
in-bounds under the theorems' hypotheses). -/
structure Tensor4 where
  shape : ℕ × ℕ × ℕ × ℕ
  entry : ℕ → ℕ → ℕ → ℕ → ℤ

/-- Model of `np.pad(data, ((0,0),(0,0),(ph,ph),(pw,pw)), mode='constant')`:
zero padding of the two spatial axes. -/
def padTensor (data : Tensor4) (ph pw : ℕ) : Tensor4 :=
  match data.shape with
  | (N, C, H, W) =>
    ⟨(N, C, H + 2 * ph, W + 2 * pw),
     fun n c y x =>
       if ph ≤ y ∧ y < H + ph ∧ pw ≤ x ∧ x < W + pw then
         data.entry n c (y - ph) (x - pw)
       else 0⟩

/-- Model of `filter_to_2d(filters) = filters.reshape(filters.shape[0], -1)`
(lines 4-21 of `src/im2col.py`): row-major flattening of the trailing
three axes. -/
def filter_to_2d (filters : Tensor4) : List (List ℤ) :=
  match filters.shape with
  | (K, C, R, S) =>
    (List.range K).map fun kk =>
      (List.range C).flatMap fun c =>
        (List.range R).flatMap fun r =>
          (List.range S).map fun s => filters.entry kk c r s

/-- Model of `filter2d_to_orig(filter_2d, (R,S)) =
filter_2d.reshape(filter_2d.shape[0], -1, R, S)` (lines 64-83 of
`src/im2col.py`).  The `-1` axis is inferred by numpy as
(total size) / (product of the known axes). -/
def filter2d_to_orig (filter_2d : List (List ℤ)) (shape : ℕ × ℕ) : Tensor4 :=
  match shape with
  | (R, S) =>
    let K := filter_2d.length
    let C := K * (filter_2d.headD []).length / (K * (R * S))
    ⟨(K, C, R, S),
     fun kk c r s => (filter_2d.getD kk []).getD (c * (R * S) + r * S + s) 0⟩

/-- Model of `data_to_2d(data, filters, stride_h, stride_w, padding_h, padding_w)`
(lines 24-61 of `src/im2col.py`): pad, compute the index triple, gather
`data_padded[:, k, i, j]` (an `(N, C*R*S, P*Q)` array) and concatenate
the `N` blocks along the column axis.  The broadcast of `k` (shape
`(C*R*S, 1)`) against `i`, `j` (shape `(C*R*S, P*Q)`) pairs row `a` of
`i`/`j` with entry `a` of `k`, which the `zip` below realises. -/
def data_to_2d (data filters : Tensor4)
    (stride_h stride_w padding_h padding_w : ℕ) : Option (List (List ℤ)) :=
  let N := data.shape.1
  let data_padded := padTensor data padding_h padding_w
  match get_im2col_indices data.shape filters.shape stride_h stride_w padding_h padding_w with
  | none => none
  | some idx =>
    some ((idx.k.zip (idx.i.zip idx.j)).map fun kij =>
      (List.range N).flatMap fun n =>
        (kij.2.1.zip kij.2.2).map fun yx => data_padded.entry n kij.1 yx.1 yx.2)

/-- Scatter-assignment of a buffered list of writes `(target, value)`:
later writes overwrite earlier ones (numpy's resolution of duplicate
fancy indices in an assignment). -/
def applyWrites (init : ℕ → ℕ → ℕ → ℕ → ℤ) (ws : List ((ℕ × ℕ × ℕ × ℕ) × ℤ)) :
    ℕ → ℕ → ℕ → ℕ → ℤ :=
  ws.foldl (fun f w => fun n c y x => if (n, c, y, x) = w.1 then w.2 else f n c y x) init

/-- The buffered writes of `x_padded[:, k, i, j] += cols`: for every
`(n, a, b)` (in C iteration order) the target coordinate
`(n, k[a], i[a,b], j[a,b])` receives the gathered base value plus
`cols[n][a,b]`. -/
def scatterWrites (idx : Im2colIdx) (N : ℕ) (base : ℕ → ℕ → ℕ → ℕ → ℤ)
    (cols : ℕ → ℕ → ℕ → ℤ) : List ((ℕ × ℕ × ℕ × ℕ) × ℤ) :=
  (List.range N).flatMap fun n =>
    (List.range idx.k.length).flatMap fun a =>
      (List.range ((idx.i.getD a []).length)).map fun b =>
        ((n, idx.k.getD a 0, (idx.i.getD a []).getD b 0, (idx.j.getD a []).getD b 0),
         base n (idx.k.getD a 0) ((idx.i.getD a []).getD b 0) ((idx.j.getD a []).getD b 0)
           + cols n a b)

/-- Model of `data2d_to_orig(data_2d, data_shape, filter_shape, stride_h,
stride_w, padding_h, padding_w)` (lines 86-119 of `src/im2col.py`).

* `np.hsplit(data_2d, N)` yields block `n` with entries
  `data_2d[a][n*L + b]`, `L` being the row length divided by `N`.
* `x_padded[:, k, i, j] += cols` gathers from the all-zero `x_padded`,
  adds `cols`, and scatter-assigns the buffered result (see
  `applyWrites`).
* The final crop of the source is
  `x_padded[:, :, padding_w:-padding_w, padding_h:-padding_h]` — note
  that it slices the height axis by `padding_w` and the width axis by
  `padding_h`.  A Python slice `a:-a` is empty when `a = 0`, hence the
  inner `if`s on the cropped shape. -/
def data2d_to_orig (data_2d : List (List ℤ)) (data_shape : ℕ × ℕ × ℕ × ℕ)
    (filter_shape : ℕ × ℕ) (stride_h stride_w padding_h padding_w : ℕ) :
    Option Tensor4 :=
  match data_shape, filter_shape with
  | (N, C, H, W), (R, S) =>
    let H_padded := H + 2 * padding_h
    let W_padded := W + 2 * padding_w
    let x_padded : ℕ → ℕ → ℕ → ℕ → ℤ := fun _ _ _ _ => 0
    match get_im2col_indices (N, C, H, W) (0, 0, R, S) stride_h stride_w padding_h padding_w with
    | none => none
    | some idx =>
      let L := (data_2d.headD []).length / N
      let cols : ℕ → ℕ → ℕ → ℤ := fun n a b => (data_2d.getD a []).getD (n * L + b) 0
      let result := applyWrites x_padded (scatterWrites idx N x_padded cols)
      if padding_h = 0 ∧ padding_w = 0 then
        some ⟨(N, C, H_padded, W_padded), result⟩
      else
        some ⟨(N, C, if padding_w = 0 then 0 else H_padded - 2 * padding_w,
                     if padding_h = 0 then 0 else W_padded - 2 * padding_h),
              fun n c y x => result n c (y + padding_w) (x + padding_h)⟩

/-- Modelled from the spec: the spec's validity condition for a
configuration — "(H − R + 2·padding_h) is exactly divisible by
stride_h, and symmetrically for width", the width check reading `W`. -/
def spec_valid_config (H W R S sh sw ph pw : ℕ) : Prop :=
  (H + 2 * ph - R) % sh = 0 ∧ (W + 2 * pw - S) % sw = 0

instance (H W R S sh sw ph pw : ℕ) : Decidable (spec_valid_config H W R S sh sw ph pw) := by
  unfold spec_valid_config; infer_instance

/-! ### Indexing facts for the list combinators -/

theorem npArange_length (n : ℕ) : (npArange n).length = n :=
  List.length_range n

theorem npArange_getElem? (n idx : ℕ) (h : idx < n) : (npArange n)[idx]? = some idx := by
  simp [npArange, List.getElem?_range, h]

theorem npRepeat_length (xs : List ℕ) (m : ℕ) : (npRepeat xs m).length = xs.length * m := by
  induction xs with
  | nil => simp [npRepeat]
  | cons x xs ih =>
    simp only [npRepeat, List.flatMap_cons, List.length_append, List.length_replicate,
      List.length_cons] at ih ⊢
    rw [ih]; ring

theorem npTile_length (xs : List ℕ) (m : ℕ) : (npTile xs m).length = m * xs.length := by
  induction m with
  | zero => simp [npTile]
  | succ m ih =>
    simp only [npTile, List.replicate_succ, List.flatten_cons, List.length_append] at ih ⊢
    rw [ih]; ring

theorem npRepeat_getElem? (xs : List ℕ) (m idx : ℕ) (h : idx < xs.length * m) :
    (npRepeat xs m)[idx]? = xs[idx / m]? := by
  induction xs generalizing idx with
  | nil => simp at h
  | cons x xs ih =>
    have hm : 0 < m := by
      rcases Nat.eq_zero_or_pos m with hm | hm
      · subst hm; simp at h
      · exact hm
    rw [show npRepeat (x :: xs) m = List.replicate m x ++ npRepeat xs m from rfl]
    by_cases hidx : idx < m
    · rw [List.getElem?_append_left (by simpa using hidx), Nat.div_eq_of_lt hidx]
      simp [List.getElem?_replicate, hidx]
    · push_neg at hidx
      rw [List.getElem?_append_right (by simpa using hidx)]
      simp only [List.length_replicate]
      have hlt : idx - m < xs.length * m := by
        have := List.length_cons x xs ▸ h
        have h' : idx < xs.length * m + m := by
          calc idx < (xs.length + 1) * m := by simpa [List.length_cons] using h
          _ = xs.length * m + m := by ring
        omega
      rw [ih _ hlt, Nat.div_eq_sub_div hm hidx, List.getElem?_cons_succ]

theorem npTile_getElem? (xs : List ℕ) (m idx : ℕ) (h : idx < m * xs.length) :
    (npTile xs m)[idx]? = xs[idx % xs.length]? := by
  induction m generalizing idx with
  | zero => simp at h
  | succ m ih =>
    rw [show npTile xs (m + 1) = xs ++ npTile xs m by
      simp [npTile, List.replicate_succ]]
    by_cases hidx : idx < xs.length
    · rw [List.getElem?_append_left hidx, Nat.mod_eq_of_lt hidx]
    · push_neg at hidx
      rw [List.getElem?_append_right hidx]
      have hlt : idx - xs.length < m * xs.length := by
        have : idx < m * xs.length + xs.length := by
          calc idx < (m + 1) * xs.length := h
          _ = m * xs.length + xs.length := by ring
        omega
      rw [ih _ hlt, ← Nat.mod_eq_sub_mod hidx]

theorem mem_npRepeat {xs : List ℕ} {m x : ℕ} (h : x ∈ npRepeat xs m) : x ∈ xs := by
  simp only [npRepeat, List.mem_flatMap] at h
  obtain ⟨a, ha, hx⟩ := h
  rwa [List.eq_of_mem_replicate hx]

theorem mem_npTile {xs : List ℕ} {m x : ℕ} (h : x ∈ npTile xs m) : x ∈ xs := by
  simp only [npTile, List.mem_flatten] at h
  obtain ⟨l, hl, hx⟩ := h
  rwa [List.eq_of_mem_replicate hl] at hx

theorem flatMap_length_const {α β : Type} (l : List α) (f : α → List β) (L : ℕ)
    (hL : ∀ a ∈ l, (f a).length = L) : (l.flatMap f).length = l.length * L := by
  induction l with
  | nil => simp
  | cons x xs ih =>
    simp only [List.flatMap_cons, List.length_append, List.length_cons,
      hL x (List.mem_cons_self x xs), ih fun a ha => hL a (List.mem_cons_of_mem x ha)]
    ring

theorem flatMap_getElem? {α β : Type} (l : List α) (f : α → List β) (L q r : ℕ) (x : α)
    (hL : ∀ a ∈ l, (f a).length = L) (hr : r < L) (hq : l[q]? = some x) :
    (l.flatMap f)[q * L + r]? = (f x)[r]? := by
  induction l generalizing q with
  | nil => simp at hq
  | cons y ys ih =>
    have hyL : (f y).length = L := hL y (List.mem_cons_self y ys)
    cases q with
    | zero =>
      obtain rfl : y = x := by simpa using hq
      rw [List.flatMap_cons, Nat.zero_mul, Nat.zero_add,
        List.getElem?_append_left (by rw [hyL]; exact hr)]
    | succ q =>
      have hle : (f y).length ≤ (q + 1) * L + r := by
        rw [hyL]
        have : L ≤ (q + 1) * L := Nat.le_mul_of_pos_left L (Nat.succ_pos q)
        omega
      rw [List.flatMap_cons, List.getElem?_append_right hle, hyL]
      have harith : (q + 1) * L + r - L = q * L + r := by
        have h2 : (q + 1) * L = q * L + L := by ring
        omega
      rw [harith]
      exact ih q (fun a ha => hL a (List.mem_cons_of_mem y ha)) (by simpa using hq)

/-! ### Closed forms for the components of the index triple -/

/-- Entries of `k = np.repeat(np.arange(C), R*S)`: entry `a` is the channel `a / (R*S)`. -/
theorem kIdx_getElem? (C R S a : ℕ) (ha : a < C * (R * S)) :
    (kIdx C R S)[a]? = some (a / (R * S)) := by
  rw [kIdx]
  have hRS : 0 < R * S := by
    rcases Nat.eq_zero_or_pos (R * S) with h | h
    · rw [h, Nat.mul_zero] at ha; omega
    · exact h
  rw [npRepeat_getElem? _ _ _ (by rwa [npArange_length]),
    npArange_getElem? _ _ ((Nat.div_lt_iff_lt_mul hRS).mpr ha)]

/-- Entries of `i0`: entry `a` is the within-kernel row `a % (R*S) / S`. -/
theorem i0_getElem? (C R S a : ℕ) (ha : a < C * (R * S)) :
    (i0Idx C R S)[a]? = some (a % (R * S) / S) := by
  rw [i0Idx]
  have hRS : 0 < R * S := by
    rcases Nat.eq_zero_or_pos (R * S) with h | h
    · rw [h, Nat.mul_zero] at ha; omega
    · exact h
  have hS : 0 < S := by
    rcases Nat.eq_zero_or_pos S with h | h
    · rw [h, Nat.mul_zero] at hRS; omega
    · exact h
  have hlen : (npRepeat (npArange R) S).length = R * S := by
    rw [npRepeat_length, npArange_length]
  rw [npTile_getElem? _ _ _ (by rwa [hlen]), hlen,
    npRepeat_getElem? _ _ _ (by rw [npArange_length]; exact Nat.mod_lt a hRS),
    npArange_getElem?]
  exact (Nat.div_lt_iff_lt_mul hS).mpr (Nat.mod_lt a hRS)

/-- Entries of `j0`: entry `a` is the within-kernel column `a % S`. -/
theorem j0_getElem? (C R S a : ℕ) (ha : a < C * (R * S)) :
    (j0Idx C R S)[a]? = some (a % S) := by
  rw [j0Idx]
  have hS : 0 < S := by
    rcases Nat.eq_zero_or_pos S with h | h
    · subst h; simp at ha
    · exact h
  have ha' : a < R * C * (npArange S).length := by
    rw [npArange_length]
    calc a < C * (R * S) := ha
    _ = R * C * S := by ring
  rw [npTile_getElem? _ _ _ ha', npArange_length,
    npArange_getElem? _ _ (Nat.mod_lt a hS)]

/-- Entries of `i1`: entry `b` is `stride_h * (b / Q)`. -/
theorem i1_getElem? (P Q sh b : ℕ) (hb : b < P * Q) :
    (i1Idx P Q sh)[b]? = some (sh * (b / Q)) := by
  rw [i1Idx]
  have hQ : 0 < Q := by
    rcases Nat.eq_zero_or_pos Q with h | h
    · rw [h, Nat.mul_zero] at hb; omega
    · exact h
  rw [List.getElem?_map, npRepeat_getElem? _ _ _ (by rwa [npArange_length]),
    npArange_getElem? _ _ ((Nat.div_lt_iff_lt_mul hQ).mpr hb)]
  rfl

/-- Entries of `j1`: entry `b` is `stride_w * (b % Q)`. -/
theorem j1_getElem? (P Q sw b : ℕ) (hb : b < P * Q) :
    (j1Idx P Q sw)[b]? = some (sw * (b % Q)) := by
  rw [j1Idx]
  have hQ : 0 < Q := by
    rcases Nat.eq_zero_or_pos Q with h | h
    · rw [h, Nat.mul_zero] at hb; omega
    · exact h
  rw [List.getElem?_map, npTile_getElem? _ _ _ (by rwa [npArange_length]),
    npArange_length, npArange_getElem? _ _ (Nat.mod_lt b hQ)]
  rfl

theorem i1_length (P Q sh : ℕ) : (i1Idx P Q sh).length = P * Q := by
  rw [i1Idx, List.length_map, npRepeat_length, npArange_length]

theorem j1_length (P Q sw : ℕ) : (j1Idx P Q sw).length = P * Q := by
  rw [j1Idx, List.length_map, npTile_length, npArange_length]

theorem kIdx_length (C R S : ℕ) : (kIdx C R S).length = C * (R * S) := by
  rw [kIdx, npRepeat_length, npArange_length]

theorem i0_length (C R S : ℕ) : (i0Idx C R S).length = C * (R * S) := by
  rw [i0Idx, npTile_length, npRepeat_length, npArange_length]

theorem j0_length (C R S : ℕ) : (j0Idx C R S).length = C * (R * S) := by
  rw [j0Idx, npTile_length, npArange_length]; ring

theorem iIdx_length (C R S P Q sh : ℕ) : (iIdx C R S P Q sh).length = C * (R * S) := by
  rw [iIdx, List.length_map, i0_length]

theorem jIdx_length (C R S P Q sw : ℕ) : (jIdx C R S P Q sw).length = C * (R * S) := by
  rw [jIdx, List.length_map, j0_length]

/-- Unfolding `get_im2col_indices` when both asserts pass. -/
theorem get_im2col_indices_some (N C H W K1 K2 R S sh sw ph pw : ℕ)
    (h1 : (H + 2 * ph - R) % sh = 0) (h2 : (H + 2 * pw - S) % sw = 0) :
    get_im2col_indices (N, C, H, W) (K1, K2, R, S) sh sw ph pw =
      some ⟨kIdx C R S, iIdx C R S (outP H R ph sh) (outQ W S pw sw) sh,
            jIdx C R S (outP H R ph sh) (outQ W S pw sw) sw⟩ := by
  simp [get_im2col_indices, h1, h2]

/-- Row `a` of the broadcast `i` array. -/
theorem iMat_getElem? (C R S P Q sh a : ℕ) (ha : a < C * (R * S)) :
    (iIdx C R S P Q sh)[a]? =
      some ((i1Idx P Q sh).map fun w => a % (R * S) / S + w) := by
  rw [iIdx, List.getElem?_map, i0_getElem? C R S a ha]
  rfl

/-- Row `a` of the broadcast `j` array. -/
theorem jMat_getElem? (C R S P Q sw a : ℕ) (ha : a < C * (R * S)) :
    (jIdx C R S P Q sw)[a]? =
      some ((j1Idx P Q sw).map fun w => a % S + w) := by
  rw [jIdx, List.getElem?_map, j0_getElem? C R S a ha]
  rfl

/-- Row `a` of the broadcast `i` array, via `getD`. -/
theorem iMat_getD (C R S P Q sh a : ℕ) (ha : a < C * (R * S)) :
    (iIdx C R S P Q sh).getD a [] = (i1Idx P Q sh).map fun w => a % (R * S) / S + w := by
  rw [List.getD_eq_getElem?_getD, iMat_getElem? C R S P Q sh a ha]
  rfl

/-- Row `a` of the broadcast `j` array, via `getD`. -/
theorem jMat_getD (C R S P Q sw a : ℕ) (ha : a < C * (R * S)) :
    (jIdx C R S P Q sw).getD a [] = (j1Idx P Q sw).map fun w => a % S + w := by
  rw [List.getD_eq_getElem?_getD, jMat_getElem? C R S P Q sw a ha]
  rfl

/-- Entry `(a, b)` of the broadcast row-index array `i`. -/
theorem iMat_entry (C R S P Q sh a b : ℕ) (ha : a < C * (R * S)) (hb : b < P * Q) :
    ((iIdx C R S P Q sh).getD a []).getD b 0 = a % (R * S) / S + sh * (b / Q) := by
  rw [iMat_getD C R S P Q sh a ha, List.getD_eq_getElem?_getD, List.getElem?_map,
    i1_getElem? P Q sh b hb]
  rfl

/-- Entry `(a, b)` of the broadcast column-index array `j`. -/
theorem jMat_entry (C R S P Q sw a b : ℕ) (ha : a < C * (R * S)) (hb : b < P * Q) :
    ((jIdx C R S P Q sw).getD a []).getD b 0 = a % S + sw * (b % Q) := by
  rw [jMat_getD C R S P Q sw a ha, List.getD_eq_getElem?_getD, List.getElem?_map,
    j1_getElem? P Q sw b hb]
  rfl

theorem kIdx_getD (C R S a : ℕ) (ha : a < C * (R * S)) :
    (kIdx C R S).getD a 0 = a / (R * S) := by
  rw [List.getD_eq_getElem?_getD, kIdx_getElem? C R S a ha]
  rfl

theorem zip_getElem? {α β : Type} (as : List α) (bs : List β) (idx : ℕ) (a : α) (b : β)
    (ha : as[idx]? = some a) (hb : bs[idx]? = some b) :
    (as.zip bs)[idx]? = some (a, b) := by
  induction as generalizing bs idx with
  | nil => simp at ha
  | cons a' as ih =>
    cases bs with
    | nil => simp at hb
    | cons b' bs =>
      cases idx with
      | zero =>
        simp only [List.getElem?_cons_zero, Option.some.injEq] at ha hb
        simp [List.zip_cons_cons, ha, hb]
      | succ idx =>
        simp only [List.getElem?_cons_succ] at ha hb
        simpa [List.zip_cons_cons] using ih bs idx ha hb

/-! ### Characterisation of `data_to_2d` -/

/-- Unfolding `data_to_2d` when both asserts pass. -/
theorem data_to_2d_some (D F : Tensor4) (N C H W K1 K2 R S sh sw ph pw : ℕ)
    (hD : D.shape = (N, C, H, W)) (hF : F.shape = (K1, K2, R, S))
    (h1 : (H + 2 * ph - R) % sh = 0) (h2 : (H + 2 * pw - S) % sw = 0) :
    data_to_2d D F sh sw ph pw =
      some (((kIdx C R S).zip
              ((iIdx C R S (outP H R ph sh) (outQ W S pw sw) sh).zip
               (jIdx C R S (outP H R ph sh) (outQ W S pw sw) sw))).map fun kij =>
        (List.range N).flatMap fun n =>
          (kij.2.1.zip kij.2.2).map fun yx =>
            (padTensor D ph pw).entry n kij.1 yx.1 yx.2) := by
  simp only [data_to_2d, hD, hF,
    get_im2col_indices_some N C H W K1 K2 R S sh sw ph pw h1 h2]

/-- Shape of the output of `data_to_2d`: `C*R*S` rows. -/
theorem data_to_2d_length (D F : Tensor4) (N C H W K1 K2 R S sh sw ph pw : ℕ)
    (hD : D.shape = (N, C, H, W)) (hF : F.shape = (K1, K2, R, S))
    (h1 : (H + 2 * ph - R) % sh = 0) (h2 : (H + 2 * pw - S) % sw = 0)
    (M : List (List ℤ)) (hM : data_to_2d D F sh sw ph pw = some M) :
    M.length = C * (R * S) := by
  rw [data_to_2d_some D F N C H W K1 K2 R S sh sw ph pw hD hF h1 h2] at hM
  obtain rfl : _ = M := Option.some.inj hM
  rw [List.length_map, List.length_zip, List.length_zip,
    kIdx_length, iIdx_length, jIdx_length]
  omega

/-- Every row of the output of `data_to_2d` has `N*P*Q` columns. -/
theorem data_to_2d_row_length (D F : Tensor4) (N C H W K1 K2 R S sh sw ph pw : ℕ)
    (hD : D.shape = (N, C, H, W)) (hF : F.shape = (K1, K2, R, S))
    (h1 : (H + 2 * ph - R) % sh = 0) (h2 : (H + 2 * pw - S) % sw = 0)
    (M : List (List ℤ)) (hM : data_to_2d D F sh sw ph pw = some M) :
    ∀ row ∈ M, row.length = N * (outP H R ph sh * outQ W S pw sw) := by
  rw [data_to_2d_some D F N C H W K1 K2 R S sh sw ph pw hD hF h1 h2] at hM
  obtain rfl : _ = M := Option.some.inj hM
  intro row hrow
  rw [List.mem_map] at hrow
  obtain ⟨kij, hkij, rfl⟩ := hrow
  obtain ⟨c, irow, jrow⟩ := kij
  have hmem := List.of_mem_zip hkij
  have hmem2 := List.of_mem_zip hmem.2
  have hirow : irow.length = outP H R ph sh * outQ W S pw sw := by
    have := hmem2.1
    rw [iIdx, List.mem_map] at this
    obtain ⟨v, _, rfl⟩ := this
    rw [List.length_map, i1_length]
  have hjrow : jrow.length = outP H R ph sh * outQ W S pw sw := by
    have := hmem2.2
    rw [jIdx, List.mem_map] at this
    obtain ⟨v, _, rfl⟩ := this
    rw [List.length_map, j1_length]
  rw [flatMap_length_const _ _ (outP H R ph sh * outQ W S pw sw)
    (fun n _ => by rw [List.length_map, List.length_zip, hirow, hjrow, Nat.min_self]),
    List.length_range]

/-- Entry `(a, n*P*Q + b)` of the output of `data_to_2d`: the element of
the zero-padded data tensor selected by the index triple. -/
theorem data_to_2d_entry (D F : Tensor4) (N C H W K1 K2 R S sh sw ph pw : ℕ)
    (hD : D.shape = (N, C, H, W)) (hF : F.shape = (K1, K2, R, S))
    (h1 : (H + 2 * ph - R) % sh = 0) (h2 : (H + 2 * pw - S) % sw = 0)
    (M : List (List ℤ)) (hM : data_to_2d D F sh sw ph pw = some M)
    (a b n : ℕ) (ha : a < C * (R * S)) (hb : b < outP H R ph sh * outQ W S pw sw)
    (hn : n < N) :
    (M.getD a []).getD (n * (outP H R ph sh * outQ W S pw sw) + b) 0 =
      (padTensor D ph pw).entry n (a / (R * S))
        (a % (R * S) / S + sh * (b / outQ W S pw sw))
        (a % S + sw * (b % outQ W S pw sw)) := by
  rw [data_to_2d_some D F N C H W K1 K2 R S sh sw ph pw hD hF h1 h2] at hM
  obtain rfl : _ = M := Option.some.inj hM
  set P := outP H R ph sh with hP
  set Q := outQ W S pw sw with hQ
  have hzip : ((kIdx C R S).zip
      ((iIdx C R S P Q sh).zip (jIdx C R S P Q sw)))[a]? =
      some (a / (R * S),
        ((i1Idx P Q sh).map fun w => a % (R * S) / S + w,
         (j1Idx P Q sw).map fun w => a % S + w)) :=
    zip_getElem? _ _ _ _ _ (kIdx_getElem? C R S a ha)
      (zip_getElem? _ _ _ _ _ (iMat_getElem? C R S P Q sh a ha)
        (jMat_getElem? C R S P Q sw a ha))
  have hrow : (((kIdx C R S).zip
      ((iIdx C R S P Q sh).zip (jIdx C R S P Q sw))).map fun kij =>
        (List.range N).flatMap fun n =>
          (kij.2.1.zip kij.2.2).map fun yx =>
            (padTensor D ph pw).entry n kij.1 yx.1 yx.2).getD a [] =
      (List.range N).flatMap fun n =>
        ((((i1Idx P Q sh).map fun w => a % (R * S) / S + w).zip
          ((j1Idx P Q sw).map fun w => a % S + w)).map fun yx =>
            (padTensor D ph pw).entry n (a / (R * S)) yx.1 yx.2) := by
    rw [List.getD_eq_getElem?_getD, List.getElem?_map, hzip]
    rfl
  rw [hrow, List.getD_eq_getElem?_getD,
    flatMap_getElem? (List.range N) _ (P * Q) n b n
      (fun m _ => by
        rw [List.length_map, List.length_zip, List.length_map, List.length_map,
          i1_length, j1_length, Nat.min_self])
      hb (by simp [List.getElem?_range, hn]),
    List.getElem?_map,
    zip_getElem? _ _ b (a % (R * S) / S + sh * (b / Q)) (a % S + sw * (b % Q))
      (by rw [List.getElem?_map, i1_getElem? P Q sh b hb]; rfl)
      (by rw [List.getElem?_map, j1_getElem? P Q sw b hb]; rfl)]
  rfl

/-! ### Last-write semantics of the scatter-assignment -/

theorem applyWrites_of_not_written (init : ℕ → ℕ → ℕ → ℕ → ℤ)
    (ws : List ((ℕ × ℕ × ℕ × ℕ) × ℤ)) (n c y x : ℕ)
    (h : ∀ w ∈ ws, w.1 ≠ (n, c, y, x)) :
    applyWrites init ws n c y x = init n c y x := by
  induction ws generalizing init with
  | nil => rfl
  | cons w ws ih =>
    rw [show applyWrites init (w :: ws) =
        applyWrites (fun n' c' y' x' => if (n', c', y', x') = w.1 then w.2
          else init n' c' y' x') ws from rfl]
    rw [ih _ fun w' hw' => h w' (List.mem_cons_of_mem w hw')]
    exact if_neg fun hc => h w (List.mem_cons_self w ws) hc.symm

/-- If every write aimed at `(n,c,y,x)` carries the same value `v`, and at
least one such write occurs, the scatter-assignment leaves `v` there. -/
theorem applyWrites_of_const (init : ℕ → ℕ → ℕ → ℕ → ℤ)
    (ws : List ((ℕ × ℕ × ℕ × ℕ) × ℤ)) (n c y x : ℕ) (v : ℤ)
    (hmem : ∃ w ∈ ws, w.1 = (n, c, y, x))
    (hval : ∀ w ∈ ws, w.1 = (n, c, y, x) → w.2 = v) :
    applyWrites init ws n c y x = v := by
  induction ws generalizing init with
  | nil => obtain ⟨w, hw, _⟩ := hmem; simp at hw
  | cons w ws ih =>
    rw [show applyWrites init (w :: ws) =
        applyWrites (fun n' c' y' x' => if (n', c', y', x') = w.1 then w.2
          else init n' c' y' x') ws from rfl]
    by_cases hws : ∃ w' ∈ ws, w'.1 = (n, c, y, x)
    · exact ih _ hws fun w' hw' => hval w' (List.mem_cons_of_mem w hw')
    · have hw : w.1 = (n, c, y, x) := by
        obtain ⟨w', hw', he⟩ := hmem
        rcases List.mem_cons.mp hw' with rfl | h'
        · exact he
        · exact absurd ⟨w', h', he⟩ hws
      rw [applyWrites_of_not_written _ _ n c y x
        fun w' hw' he => hws ⟨w', hw', he⟩]
      rw [if_pos hw.symm]
      exact hval w (List.mem_cons_self w ws) hw

/-- Membership in the write list of the scatter. -/
theorem scatterWrites_mem (idx : Im2colIdx) (N : ℕ) (base : ℕ → ℕ → ℕ → ℕ → ℤ)
    (cols : ℕ → ℕ → ℕ → ℤ) (w : (ℕ × ℕ × ℕ × ℕ) × ℤ) :
    w ∈ scatterWrites idx N base cols ↔
      ∃ n < N, ∃ a < idx.k.length, ∃ b < (idx.i.getD a []).length,
        w = ((n, idx.k.getD a 0, (idx.i.getD a []).getD b 0, (idx.j.getD a []).getD b 0),
             base n (idx.k.getD a 0) ((idx.i.getD a []).getD b 0) ((idx.j.getD a []).getD b 0)
               + cols n a b) := by
  simp only [scatterWrites, List.mem_flatMap, List.mem_map, List.mem_range]
  constructor
  · rintro ⟨n, hn, a, ha, b, hb, rfl⟩
    exact ⟨n, hn, a, ha, b, hb, rfl⟩
  · rintro ⟨n, hn, a, ha, b, hb, rfl⟩
    exact ⟨n, hn, a, ha, b, hb, rfl⟩

/-- Variant of `scatterWrites_mem` with the index structure given by components. -/
theorem scatterWrites_mem_mk (kl : List ℕ) (il jl : List (List ℕ)) (N : ℕ)
    (base : ℕ → ℕ → ℕ → ℕ → ℤ) (cols : ℕ → ℕ → ℕ → ℤ) (w : (ℕ × ℕ × ℕ × ℕ) × ℤ) :
    w ∈ scatterWrites ⟨kl, il, jl⟩ N base cols ↔
      ∃ n < N, ∃ a < kl.length, ∃ b < (il.getD a []).length,
        w = ((n, kl.getD a 0, (il.getD a []).getD b 0, (jl.getD a []).getD b 0),
             base n (kl.getD a 0) ((il.getD a []).getD b 0) ((jl.getD a []).getD b 0)
               + cols n a b) :=
  scatterWrites_mem ⟨kl, il, jl⟩ N base cols w

/-- Decomposition of a covered coordinate: when the stride is at most the
kernel extent and divides `L - E` exactly, every position `y < L` lies in
some window: `y = e + st * t` with `e < E` and `t < (L - E)/st + 1`. -/
theorem cover_decomp (L E st : ℕ) (hst : 0 < st) (hstE : st ≤ E) (hEL : E ≤ L)
    (hdvd : st ∣ (L - E)) (y : ℕ) (hy : y < L) :
    ∃ e < E, ∃ t < (L - E) / st + 1, y = e + st * t := by
  rcases le_or_lt (y / st) ((L - E) / st) with hcase | hcase
  · refine ⟨y % st, lt_of_lt_of_le (Nat.mod_lt y hst) hstE, y / st, by omega, ?_⟩
    rw [Nat.mod_add_div y st]
  · have hmul : st * ((L - E) / st) = L - E := Nat.mul_div_cancel' hdvd
    have hle : st * ((L - E) / st + 1) ≤ st * (y / st) := by
      exact Nat.mul_le_mul_left st hcase
    have hsucc : st * ((L - E) / st + 1) = st * ((L - E) / st) + st := Nat.mul_succ st _
    have hdivle : st * (y / st) ≤ y := Nat.mul_div_le y st
    refine ⟨y - st * ((L - E) / st), by omega, (L - E) / st, by omega, by omega⟩

/-! ### Reconstruction: value of the scattered buffer -/

theorem block_div (M d c : ℕ) (hd : d < M) : (c * M + d) / M = c := by
  have h0 : 0 < M := by omega
  rw [show c * M + d = d + M * c by ring, Nat.add_mul_div_left d c h0,
    Nat.div_eq_of_lt hd, Nat.zero_add]

theorem block_mod (M d c : ℕ) (hd : d < M) : (c * M + d) % M = d := by
  rw [show c * M + d = d + M * c by ring, Nat.add_mul_mod_self_left,
    Nat.mod_eq_of_lt hd]

/-- Value of `x_padded` after `x_padded[:, k, i, j] += cols` when `cols`
is the matrix produced by `data_to_2d` on the same configuration and the
windows cover the padded plane (`stride ≤ kernel extent` in both
dimensions): every in-range position holds the corresponding entry of
the padded data tensor — a single surviving contribution, duplicates
being overwritten, not summed. -/
theorem scatter_result (D F : Tensor4) (N C H W K1 K2 R S sh sw p : ℕ)
    (hD : D.shape = (N, C, H, W)) (hF : F.shape = (K1, K2, R, S))
    (hsh : 0 < sh) (hsw : 0 < sw) (hshR : sh ≤ R) (hswS : sw ≤ S)
    (hRH : R ≤ H + 2 * p) (hSW : S ≤ W + 2 * p)
    (hdvd1 : sh ∣ (H + 2 * p - R)) (hdvd2 : sw ∣ (W + 2 * p - S))
    (h2 : (H + 2 * p - S) % sw = 0)
    (hN : 0 < N)
    (M : List (List ℤ)) (hM : data_to_2d D F sh sw p p = some M)
    (n c y x : ℕ) (hn : n < N) (hc : c < C) (hy : y < H + 2 * p) (hx : x < W + 2 * p) :
    applyWrites (fun _ _ _ _ => 0)
      (scatterWrites
        ⟨kIdx C R S, iIdx C R S (outP H R p sh) (outQ W S p sw) sh,
         jIdx C R S (outP H R p sh) (outQ W S p sw) sw⟩
        N (fun _ _ _ _ => 0)
        (fun n' a b => (M.getD a []).getD (n' * ((M.headD []).length / N) + b) 0))
      n c y x = (padTensor D p p).entry n c y x := by
  have h1 : (H + 2 * p - R) % sh = 0 := by
    obtain ⟨t, ht⟩ := hdvd1; rw [ht, Nat.mul_mod_right]
  set P := outP H R p sh with hPdef
  set Q := outQ W S p sw with hQdef
  have hR : 0 < R := lt_of_lt_of_le hsh hshR
  have hS : 0 < S := lt_of_lt_of_le hsw hswS
  have hCRS : 0 < C * (R * S) := Nat.mul_pos (by omega) (Nat.mul_pos hR hS)
  have hMlen : M.length = C * (R * S) :=
    data_to_2d_length D F N C H W K1 K2 R S sh sw p p hD hF h1 h2 M hM
  have hL : (M.headD []).length / N = P * Q := by
    have hhead : M.headD [] ∈ M := by
      cases M with
      | nil => rw [List.length_nil] at hMlen; omega
      | cons row M' => simp
    rw [data_to_2d_row_length D F N C H W K1 K2 R S sh sw p p hD hF h1 h2 M hM
      (M.headD []) hhead]
    exact Nat.mul_div_cancel_left _ hN
  obtain ⟨r, hr, pp, hppraw, hyeq⟩ :=
    cover_decomp (H + 2 * p) R sh hsh hshR hRH hdvd1 y hy
  obtain ⟨s, hs, qq, hqqraw, hxeq⟩ :=
    cover_decomp (W + 2 * p) S sw hsw hswS hSW hdvd2 x hx
  have hpp : pp < P := hppraw
  have hqq : qq < Q := hqqraw
  have hrs : r * S + s < R * S := by
    have hmul : (r + 1) * S ≤ R * S := Nat.mul_le_mul_right S hr
    have hexp : (r + 1) * S = r * S + S := by ring
    omega
  have ha : c * (R * S) + (r * S + s) < C * (R * S) := by
    have hmul : (c + 1) * (R * S) ≤ C * (R * S) := Nat.mul_le_mul_right (R * S) hc
    have hexp : (c + 1) * (R * S) = c * (R * S) + R * S := by ring
    omega
  have hb : pp * Q + qq < P * Q := by
    have hmul : (pp + 1) * Q ≤ P * Q := Nat.mul_le_mul_right Q hpp
    have hexp : (pp + 1) * Q = pp * Q + Q := by ring
    omega
  -- the index entries at (a, b) hit exactly the target coordinate
  have hk : (kIdx C R S).getD (c * (R * S) + (r * S + s)) 0 = c := by
    rw [kIdx_getD C R S _ ha, block_div _ _ _ hrs]
  have hi : ((iIdx C R S P Q sh).getD (c * (R * S) + (r * S + s)) []).getD
      (pp * Q + qq) 0 = y := by
    rw [iMat_entry C R S P Q sh _ _ ha hb, block_mod _ _ _ hrs,
      block_div S s r hs, block_div Q qq pp hqq]
    omega
  have hj : ((jIdx C R S P Q sw).getD (c * (R * S) + (r * S + s)) []).getD
      (pp * Q + qq) 0 = x := by
    rw [jMat_entry C R S P Q sw _ _ ha hb, block_mod Q qq pp hqq]
    have hamod : (c * (R * S) + (r * S + s)) % S = s := by
      rw [show c * (R * S) + (r * S + s) = s + (c * R + r) * S by ring,
        Nat.add_mul_mod_self_right, Nat.mod_eq_of_lt hs]
    rw [hamod]
    omega
  -- row-length facts for the explicit structure
  have hklen : (kIdx C R S).length = C * (R * S) := kIdx_length C R S
  have hilen : ∀ a' < C * (R * S), ((iIdx C R S P Q sh).getD a' []).length = P * Q := by
    intro a' ha'
    rw [iMat_getD C R S P Q sh a' ha', List.length_map, i1_length]
  -- every write aimed at the target carries the padded entry
  have hval : ∀ w ∈ scatterWrites
      ⟨kIdx C R S, iIdx C R S P Q sh, jIdx C R S P Q sw⟩ N (fun _ _ _ _ => 0)
      (fun n' a b => (M.getD a []).getD (n' * ((M.headD []).length / N) + b) 0),
      w.1 = (n, c, y, x) → w.2 = (padTensor D p p).entry n c y x := by
    intro w hw hweq
    rw [scatterWrites_mem_mk] at hw
    obtain ⟨n', hn', a', ha', b', hb', rfl⟩ := hw
    simp only [Prod.mk.injEq] at hweq
    obtain ⟨rfl, hkE, hiE, hjE⟩ := hweq
    have ha'' : a' < C * (R * S) := by rwa [hklen] at ha'
    have hb'' : b' < P * Q := by rwa [hilen a' ha''] at hb'
    have hcols : (M.getD a' []).getD (n' * ((M.headD []).length / N) + b') 0 =
        (padTensor D p p).entry n' (a' / (R * S))
          (a' % (R * S) / S + sh * (b' / Q)) (a' % S + sw * (b' % Q)) := by
      rw [hL]
      exact data_to_2d_entry D F N C H W K1 K2 R S sh sw p p hD hF h1 h2 M hM
        a' b' n' ha'' hb'' hn'
    have hkval : a' / (R * S) = c := by
      rw [← kIdx_getD C R S a' ha'']; exact hkE
    have hival : a' % (R * S) / S + sh * (b' / Q) = y := by
      rw [← iMat_entry C R S P Q sh a' b' ha'' hb'']; exact hiE
    have hjval : a' % S + sw * (b' % Q) = x := by
      rw [← jMat_entry C R S P Q sw a' b' ha'' hb'']; exact hjE
    show (0 : ℤ) + _ = _
    rw [zero_add, hcols, hkval, hival, hjval]
  refine applyWrites_of_const _ _ n c y x _
    ⟨_, (scatterWrites_mem_mk _ _ _ _ _ _ _).mpr
      ⟨n, hn, c * (R * S) + (r * S + s), by rw [hklen]; exact ha,
       pp * Q + qq, by rw [hilen _ ha]; exact hb, rfl⟩, ?_⟩ hval
  show (n, (kIdx C R S).getD (c * (R * S) + (r * S + s)) 0,
    ((iIdx C R S P Q sh).getD (c * (R * S) + (r * S + s)) []).getD (pp * Q + qq) 0,
    ((jIdx C R S P Q sw).getD (c * (R * S) + (r * S + s)) []).getD (pp * Q + qq) 0) =
    (n, c, y, x)
  rw [hk, hi, hj]

theorem padTensor_entry (D : Tensor4) (N C H W ph pw n c y x : ℕ)
    (hD : D.shape = (N, C, H, W)) :
    (padTensor D ph pw).entry n c y x =
      if ph ≤ y ∧ y < H + ph ∧ pw ≤ x ∧ x < W + pw then
        D.entry n c (y - ph) (x - pw) else 0 := by
  simp only [padTensor, hD]

/-- Full reconstruction: `data2d_to_orig` after `data_to_2d` returns the
original tensor whenever the receptive fields cover the padded plane
(`stride ≤ kernel extent` in both dimensions), the padding is symmetric
(`padding_h = padding_w = p`, which neutralises the swapped crop
margins of line 119), and the configuration passes the asserts with
exact divisions. -/
theorem reconstruct_exact (D F : Tensor4) (N C H W K1 K2 R S sh sw p : ℕ)
    (hD : D.shape = (N, C, H, W)) (hF : F.shape = (K1, K2, R, S))
    (hsh : 0 < sh) (hsw : 0 < sw) (hshR : sh ≤ R) (hswS : sw ≤ S)
    (hRH : R ≤ H + 2 * p) (hSW : S ≤ W + 2 * p)
    (hdvd1 : sh ∣ (H + 2 * p - R)) (hdvd2 : sw ∣ (W + 2 * p - S))
    (h2 : (H + 2 * p - S) % sw = 0) (hN : 0 < N)
    (M : List (List ℤ)) (hM : data_to_2d D F sh sw p p = some M) :
    ∃ T : Tensor4, data2d_to_orig M (N, C, H, W) (R, S) sh sw p p = some T ∧
      T.shape = (N, C, H, W) ∧
      ∀ n < N, ∀ c < C, ∀ y < H, ∀ x < W, T.entry n c y x = D.entry n c y x := by
  have h1 : (H + 2 * p - R) % sh = 0 := by
    obtain ⟨t, ht⟩ := hdvd1; rw [ht, Nat.mul_mod_right]
  simp only [data2d_to_orig, get_im2col_indices_some N C H W 0 0 R S sh sw p p h1 h2]
  by_cases hp : p = 0
  · subst hp
    rw [if_pos ⟨rfl, rfl⟩]
    refine ⟨_, rfl, by norm_num, ?_⟩
    intro n hn c hc y hy x hx
    show applyWrites _ _ n c y x = D.entry n c y x
    rw [scatter_result D F N C H W K1 K2 R S sh sw 0 hD hF hsh hsw hshR hswS
      hRH hSW hdvd1 hdvd2 h2 hN M hM n c y x hn hc (by omega) (by omega)]
    rw [padTensor_entry D N C H W 0 0 n c y x hD,
      if_pos ⟨Nat.zero_le y, by omega, Nat.zero_le x, by omega⟩]
    simp
  · rw [if_neg (by omega)]
    refine ⟨_, rfl, ?_, ?_⟩
    · show (N, C, if p = 0 then 0 else H + 2 * p - 2 * p,
        if p = 0 then 0 else W + 2 * p - 2 * p) = (N, C, H, W)
      rw [if_neg hp, if_neg hp]
      have h3 : H + 2 * p - 2 * p = H := by omega
      have h4 : W + 2 * p - 2 * p = W := by omega
      rw [h3, h4]
    · intro n hn c hc y hy x hx
      show applyWrites _ _ n c (y + p) (x + p) = D.entry n c y x
      rw [scatter_result D F N C H W K1 K2 R S sh sw p hD hF hsh hsw hshR hswS
        hRH hSW hdvd1 hdvd2 h2 hN M hM n c (y + p) (x + p) hn hc (by omega) (by omega)]
      rw [padTensor_entry D N C H W p p n c (y + p) (x + p) hD,
        if_pos ⟨by omega, by omega, by omega, by omega⟩]
      congr 1 <;> omega

/-! ### Small helpers for the claim theorems -/

theorem block_lt (C M c d : ℕ) (hc : c < C) (hd : d < M) : c * M + d < C * M := by
  have hmul : (c + 1) * M ≤ C * M := Nat.mul_le_mul_right M hc
  have hexp : (c + 1) * M = c * M + M := by ring
  omega

/-- A successful `get_im2col_indices` call means both asserts passed. -/
theorem get_im2col_indices_assert (N C H W K1 K2 R S sh sw ph pw : ℕ) (idx : Im2colIdx)
    (h : get_im2col_indices (N, C, H, W) (K1, K2, R, S) sh sw ph pw = some idx) :
    (H + 2 * ph - R) % sh = 0 ∧ (H + 2 * pw - S) % sw = 0 := by
  by_contra hcon
  simp [get_im2col_indices, hcon] at h

/-- A successful `data_to_2d` call means both asserts passed. -/
theorem data_to_2d_assert (D F : Tensor4) (N C H W K1 K2 R S sh sw ph pw : ℕ)
    (hD : D.shape = (N, C, H, W)) (hF : F.shape = (K1, K2, R, S))
    (M : List (List ℤ)) (hM : data_to_2d D F sh sw ph pw = some M) :
    (H + 2 * ph - R) % sh = 0 ∧ (H + 2 * pw - S) % sw = 0 := by
  by_contra hcon
  simp [data_to_2d, hD, hF, get_im2col_indices, hcon] at hM

/-! ### Concrete tensors used by counterexamples and witnesses -/

/-- Tensor `np.arange(9).reshape(1, 1, 3, 3)`. -/
def dataA9 : Tensor4 :=
  ⟨(1, 1, 3, 3), fun n c y x => ((n * 9 + c * 9 + y * 3 + x : ℕ) : ℤ)⟩

/-- A `(1, 1, 1, 1)` filter (values are irrelevant to `data_to_2d`). -/
def filterOne : Tensor4 :=
  ⟨(1, 1, 1, 1), fun _ _ _ _ => 1⟩

/-- Filter of shape `(1, 1, 2, 2)` paired with a `2 × 2` kernel. -/
def filter22 : Tensor4 :=
  ⟨(1, 1, 2, 2), fun _ _ _ _ => 1⟩

/-- Tensor `np.arange(4).reshape(1, 1, 2, 2)`. -/
def dataA4 : Tensor4 :=
  ⟨(1, 1, 2, 2), fun n c y x => ((n * 4 + c * 4 + y * 2 + x : ℕ) : ℤ)⟩

/-! ### C1 -/

/-- C1, counterexample: with `D = arange(9).reshape(1,1,3,3)`, kernel
`R = S = 1`, strides `2` (so `stride ≥ kernel extent`), zero padding and
exact divisions, the round trip does **not** return `D`: position
`(0,0,1,1)` lies between the non-overlapping windows, is never written,
and comes back `0` while `D` holds `4` there. -/
theorem C1_counterexample :
    Option.map (fun T => T.entry 0 0 1 1)
      ((data_to_2d dataA9 filterOne 2 2 0 0).bind fun M =>
        data2d_to_orig M (1, 1, 3, 3) (1, 1) 2 2 0 0) = some 0 ∧
    dataA9.entry 0 0 1 1 = 4 ∧ (0 : ℤ) ≠ 4 := by
  exact ⟨by decide, by decide, by decide⟩

/-- C1, amended: the round trip `data2d_to_orig ∘ data_to_2d` is the
identity when the strides *equal* the kernel extents (`sh = R`,
`sw = S`, so the windows tile the padded plane exactly), the padding is
symmetric (`ph = pw`), and the configuration divides exactly and passes
the code's asserts. -/
theorem C1_roundtrip_amended (D F : Tensor4) (N C H W K R S sh sw p : ℕ)
    (hD : D.shape = (N, C, H, W)) (hF : F.shape = (K, C, R, S))
    (hsh : 0 < sh) (hsw : 0 < sw) (hshR : sh = R) (hswS : sw = S)
    (hRH : R ≤ H + 2 * p) (hSW : S ≤ W + 2 * p)
    (hdvd1 : sh ∣ (H + 2 * p - R)) (hdvd2 : sw ∣ (W + 2 * p - S))
    (h2 : (H + 2 * p - S) % sw = 0) (hN : 0 < N)
    (M : List (List ℤ)) (hM : data_to_2d D F sh sw p p = some M) :
    ∃ T : Tensor4, data2d_to_orig M (N, C, H, W) (R, S) sh sw p p = some T ∧
      T.shape = (N, C, H, W) ∧
      ∀ n < N, ∀ c < C, ∀ y < H, ∀ x < W, T.entry n c y x = D.entry n c y x :=
  reconstruct_exact D F N C H W K C R S sh sw p hD hF hsh hsw (le_of_eq hshR)
    (le_of_eq hswS) hRH hSW hdvd1 hdvd2 h2 hN M hM

/-- C1, witness: the amended round trip at
`D = arange(4).reshape(1,1,2,2)`, kernel `2 × 2`, stride `2`, padding `0`. -/
theorem C1_roundtrip_amended_witness :
    data_to_2d dataA4 filter22 2 2 0 0 = some [[0], [1], [2], [3]] ∧
    ∃ T : Tensor4, data2d_to_orig [[0], [1], [2], [3]] (1, 1, 2, 2) (2, 2) 2 2 0 0 = some T ∧
      T.shape = (1, 1, 2, 2) ∧
      ∀ n < 1, ∀ c < 1, ∀ y < 2, ∀ x < 2, T.entry n c y x = dataA4.entry n c y x :=
  ⟨by decide,
   C1_roundtrip_amended dataA4 filter22 1 1 2 2 1 2 2 2 2 0 rfl rfl (by decide)
     (by decide) rfl rfl (by decide) (by decide) (by decide) (by decide) (by decide)
     (by decide) [[0], [1], [2], [3]] (by decide)⟩

/-! ### C3 -/

/-- Tensor `np.arange(24).reshape(2,3,2,2)`, the filter of the docstring examples. -/
def filtersEx : Tensor4 :=
  ⟨(2, 3, 2, 2), fun kk c r s => ((kk * 12 + c * 4 + r * 2 + s : ℕ) : ℤ)⟩

/-- C3, counterexample: `D = arange(9).reshape(1,1,3,3)` with a `2 × 2`
kernel at stride `1`: position `(1,1)` is covered by all four receptive
fields, so the claim predicts `4 * D[1,1] = 16`; the code's in-place
fancy-indexed `+=` does not accumulate duplicate indices and the
reconstruction returns `4 = D[1,1]` instead. -/
theorem C3_counterexample :
    Option.map (fun T => T.entry 0 0 1 1)
      ((data_to_2d dataA9 filter22 1 1 0 0).bind fun M =>
        data2d_to_orig M (1, 1, 3, 3) (2, 2) 1 1 0 0) = some 4 ∧
    dataA9.entry 0 0 1 1 = 4 ∧ (4 : ℤ) ≠ 4 * 4 := by
  exact ⟨by decide, by decide, by decide⟩

/-- C3, amended: for overlapping windows (`stride ≤ kernel extent`, in
particular every `stride < kernel` case) with symmetric padding and a
valid configuration, the reconstruction holds the *original* value at
every position — a single surviving contribution per position, because
the buffered `+=` writes each duplicate index once instead of summing;
the multiplier is `1`, not the receptive-field count. -/
theorem C3_overlap_amended (D F : Tensor4) (N C H W K1 K2 R S sh sw p : ℕ)
    (hD : D.shape = (N, C, H, W)) (hF : F.shape = (K1, K2, R, S))
    (hsh : 0 < sh) (hsw : 0 < sw) (hshR : sh ≤ R) (hswS : sw ≤ S)
    (hRH : R ≤ H + 2 * p) (hSW : S ≤ W + 2 * p)
    (hdvd1 : sh ∣ (H + 2 * p - R)) (hdvd2 : sw ∣ (W + 2 * p - S))
    (h2 : (H + 2 * p - S) % sw = 0) (hN : 0 < N)
    (M : List (List ℤ)) (hM : data_to_2d D F sh sw p p = some M) :
    ∃ T : Tensor4, data2d_to_orig M (N, C, H, W) (R, S) sh sw p p = some T ∧
      T.shape = (N, C, H, W) ∧
      ∀ n < N, ∀ c < C, ∀ y < H, ∀ x < W, T.entry n c y x = D.entry n c y x :=
  reconstruct_exact D F N C H W K1 K2 R S sh sw p hD hF hsh hsw hshR hswS
    hRH hSW hdvd1 hdvd2 h2 hN M hM

/-- C3, witness: the amended statement at `D = arange(9).reshape(1,1,3,3)`,
kernel `2 × 2`, stride `1` (overlapping), padding `0`. -/
theorem C3_overlap_amended_witness :
    data_to_2d dataA9 filter22 1 1 0 0 =
      some [[0, 1, 3, 4], [1, 2, 4, 5], [3, 4, 6, 7], [4, 5, 7, 8]] ∧
    ∃ T : Tensor4, data2d_to_orig [[0, 1, 3, 4], [1, 2, 4, 5], [3, 4, 6, 7], [4, 5, 7, 8]]
        (1, 1, 3, 3) (2, 2) 1 1 0 0 = some T ∧
      T.shape = (1, 1, 3, 3) ∧
      ∀ n < 1, ∀ c < 1, ∀ y < 3, ∀ x < 3, T.entry n c y x = dataA9.entry n c y x :=
  ⟨by decide,
   C3_overlap_amended dataA9 filter22 1 1 3 3 1 1 2 2 1 1 0 rfl rfl (by decide)
     (by decide) (by decide) (by decide) (by decide) (by decide) (by decide)
     (by decide) (by decide) (by decide)
     [[0, 1, 3, 4], [1, 2, 4, 5], [3, 4, 6, 7], [4, 5, 7, 8]] (by decide)⟩

/-! ### C2 -/

/-- C2: the width assert of `get_im2col_indices` (line 129) reads `H`
instead of `W`, so the raise-iff-invalid claim fails in both directions.
With `H = 3, W = 4, R = 1, S = 2, strides (1,2)` the configuration is
valid per the spec (`(W-S+2·pw) % sw = 0`) yet the code raises; with
`H = 4, W = 3` and the same kernel/strides the spec declares the
configuration invalid yet the code accepts it. -/
theorem C2_width_assert_reads_height :
    spec_valid_config 3 4 1 2 1 2 0 0 ∧
    get_im2col_indices (1, 1, 3, 4) (1, 1, 1, 2) 1 2 0 0 = none ∧
    ¬ spec_valid_config 4 3 1 2 1 2 0 0 ∧
    (get_im2col_indices (1, 1, 4, 3) (1, 1, 1, 2) 1 2 0 0).isSome = true := by
  exact ⟨by decide, by decide, by decide, by decide⟩

/-! ### C4 -/

/-- C4: for a valid configuration, entry `(c·R·S + r·S + s,
n·P·Q + p·Q + q)` of the matrix returned by `data_to_2d` is the element
of the zero-padded input at `(n, c, r + stride_h·p, s + stride_w·q)`:
columns are batch-major and, within a batch, output-row-major. -/
theorem C4_data_to_2d_entry (D F : Tensor4) (N C H W K R S sh sw ph pw n c r s p q : ℕ)
    (M : List (List ℤ))
    (hD : D.shape = (N, C, H, W)) (hF : F.shape = (K, C, R, S))
    (hRH : R ≤ H + 2 * ph) (hSW : S ≤ W + 2 * pw)
    (hdvd1 : sh ∣ (H + 2 * ph - R)) (hdvd2 : sw ∣ (W + 2 * pw - S))
    (hM : data_to_2d D F sh sw ph pw = some M)
    (hn : n < N) (hc : c < C) (hr : r < R) (hs : s < S)
    (hp : p < outP H R ph sh) (hq : q < outQ W S pw sw) :
    (M.getD (c * (R * S) + (r * S + s)) []).getD
      (n * (outP H R ph sh * outQ W S pw sw) + (p * outQ W S pw sw + q)) 0 =
      (padTensor D ph pw).entry n c (r + sh * p) (s + sw * q) := by
  obtain ⟨h1, h2⟩ := data_to_2d_assert D F N C H W K C R S sh sw ph pw hD hF M hM
  have hrs : r * S + s < R * S := block_lt R S r s hr hs
  have ha : c * (R * S) + (r * S + s) < C * (R * S) := block_lt C (R * S) c _ hc hrs
  have hb : p * outQ W S pw sw + q < outP H R ph sh * outQ W S pw sw :=
    block_lt _ _ p q hp hq
  have hamod : (c * (R * S) + (r * S + s)) % S = s := by
    rw [show c * (R * S) + (r * S + s) = s + (c * R + r) * S by ring,
      Nat.add_mul_mod_self_right, Nat.mod_eq_of_lt hs]
  rw [data_to_2d_entry D F N C H W K C R S sh sw ph pw hD hF h1 h2 M hM _ _ n ha hb hn,
    block_div (R * S) (r * S + s) c hrs, block_mod (R * S) (r * S + s) c hrs,
    block_div S s r hs, block_div (outQ W S pw sw) q p hq,
    block_mod (outQ W S pw sw) q p hq, hamod]

/-- C4, witness: `D = arange(4).reshape(1,1,2,2)` with a `1 × 1` kernel
at stride `1`: entry `(0, 2)` of the patch matrix is `D[0,0,1,0] = 2`. -/
theorem C4_data_to_2d_entry_witness :
    data_to_2d dataA4 filterOne 1 1 0 0 = some [[0, 1, 2, 3]] ∧
    ([[(0 : ℤ), 1, 2, 3]].getD (0 * (1 * 1) + (0 * 1 + 0)) []).getD
      (0 * (outP 2 1 0 1 * outQ 2 1 0 1) + (1 * outQ 2 1 0 1 + 0)) 0 =
      (padTensor dataA4 0 0).entry 0 0 (0 + 1 * 1) (0 + 1 * 0) :=
  ⟨by decide,
   C4_data_to_2d_entry dataA4 filterOne 1 1 2 2 1 1 1 1 1 0 0 0 0 0 0 1 0
     [[0, 1, 2, 3]] rfl rfl (by decide) (by decide) (by decide) (by decide)
     (by decide) (by decide) (by decide) (by decide) (by decide) (by decide)
     (by decide)⟩

/-! ### C5 -/

theorem iIdx_row_length (C R S P Q sh : ℕ) :
    ∀ row ∈ iIdx C R S P Q sh, row.length = P * Q := by
  intro row hrow
  rw [iIdx, List.mem_map] at hrow
  obtain ⟨v, _, rfl⟩ := hrow
  rw [List.length_map, i1_length]

theorem jIdx_row_length (C R S P Q sw : ℕ) :
    ∀ row ∈ jIdx C R S P Q sw, row.length = P * Q := by
  intro row hrow
  rw [jIdx, List.mem_map] at hrow
  obtain ⟨v, _, rfl⟩ := hrow
  rw [List.length_map, j1_length]

/-- C5: on a valid configuration `get_im2col_indices` returns `k` of
length `C·R·S` and `i`, `j` of shape `(C·R·S, P·Q)` with
`k[c·R·S + r·S + s] = c`, `i[c·R·S + r·S + s, p·Q + q] = r + stride_h·p`
and `j[c·R·S + r·S + s, p·Q + q] = s + stride_w·q`; the result does not
depend on the batch count nor on the first two filter dimensions. -/
theorem C5_index_arrays (N C H W K1 K2 R S sh sw ph pw : ℕ) (idx : Im2colIdx)
    (hdvd1 : sh ∣ (H + 2 * ph - R)) (hdvd2 : sw ∣ (W + 2 * pw - S))
    (hidx : get_im2col_indices (N, C, H, W) (K1, K2, R, S) sh sw ph pw = some idx) :
    idx.k.length = C * (R * S) ∧
    idx.i.length = C * (R * S) ∧
    idx.j.length = C * (R * S) ∧
    (∀ row ∈ idx.i, row.length = outP H R ph sh * outQ W S pw sw) ∧
    (∀ row ∈ idx.j, row.length = outP H R ph sh * outQ W S pw sw) ∧
    (∀ c < C, ∀ r < R, ∀ s < S, idx.k.getD (c * (R * S) + (r * S + s)) 0 = c) ∧
    (∀ c < C, ∀ r < R, ∀ s < S, ∀ p < outP H R ph sh, ∀ q < outQ W S pw sw,
      (idx.i.getD (c * (R * S) + (r * S + s)) []).getD (p * outQ W S pw sw + q) 0
        = r + sh * p ∧
      (idx.j.getD (c * (R * S) + (r * S + s)) []).getD (p * outQ W S pw sw + q) 0
        = s + sw * q) ∧
    (∀ N' K1' K2' : ℕ,
      get_im2col_indices (N', C, H, W) (K1', K2', R, S) sh sw ph pw = some idx) := by
  obtain ⟨h1, h2⟩ := get_im2col_indices_assert N C H W K1 K2 R S sh sw ph pw idx hidx
  rw [get_im2col_indices_some N C H W K1 K2 R S sh sw ph pw h1 h2] at hidx
  obtain rfl : _ = idx := Option.some.inj hidx
  set P := outP H R ph sh
  set Q := outQ W S pw sw
  refine ⟨kIdx_length C R S, iIdx_length C R S P Q sh, jIdx_length C R S P Q sw,
    iIdx_row_length C R S P Q sh, jIdx_row_length C R S P Q sw,
    ?_, ?_, fun N' K1' K2' =>
      get_im2col_indices_some N' C H W K1' K2' R S sh sw ph pw h1 h2⟩
  · intro c hc r hr s hs
    have hrs : r * S + s < R * S := block_lt R S r s hr hs
    have ha : c * (R * S) + (r * S + s) < C * (R * S) := block_lt C (R * S) c _ hc hrs
    exact (kIdx_getD C R S _ ha).trans (block_div (R * S) (r * S + s) c hrs)
  · intro c hc r hr s hs p hp q hq
    have hrs : r * S + s < R * S := block_lt R S r s hr hs
    have ha : c * (R * S) + (r * S + s) < C * (R * S) := block_lt C (R * S) c _ hc hrs
    have hb : p * Q + q < P * Q := block_lt P Q p q hp hq
    have hamod : (c * (R * S) + (r * S + s)) % S = s := by
      rw [show c * (R * S) + (r * S + s) = s + (c * R + r) * S by ring,
        Nat.add_mul_mod_self_right, Nat.mod_eq_of_lt hs]
    constructor
    · show ((iIdx C R S P Q sh).getD (c * (R * S) + (r * S + s)) []).getD
        (p * Q + q) 0 = r + sh * p
      rw [iMat_entry C R S P Q sh _ _ ha hb, block_mod (R * S) (r * S + s) c hrs,
        block_div S s r hs, block_div Q q p hq]
    · show ((jIdx C R S P Q sw).getD (c * (R * S) + (r * S + s)) []).getD
        (p * Q + q) 0 = s + sw * q
      rw [jMat_entry C R S P Q sw _ _ ha hb, hamod, block_mod Q q p hq]

/-- C5, witness: the index triple of a `(1,1,2,2)` input with a `1 × 1`
kernel at stride `1`, zero padding. -/
theorem C5_index_arrays_witness :
    get_im2col_indices (1, 1, 2, 2) (1, 1, 1, 1) 1 1 0 0 =
      some ⟨[0], [[0, 0, 1, 1]], [[0, 1, 0, 1]]⟩ ∧
    ((Im2colIdx.mk [0] [[0, 0, 1, 1]] [[0, 1, 0, 1]]).k.length = 1 * (1 * 1) ∧
     (Im2colIdx.mk [0] [[0, 0, 1, 1]] [[0, 1, 0, 1]]).i.length = 1 * (1 * 1) ∧
     (Im2colIdx.mk [0] [[0, 0, 1, 1]] [[0, 1, 0, 1]]).j.length = 1 * (1 * 1) ∧
     (∀ row ∈ (Im2colIdx.mk [0] [[0, 0, 1, 1]] [[0, 1, 0, 1]]).i,
       row.length = outP 2 1 0 1 * outQ 2 1 0 1) ∧
     (∀ row ∈ (Im2colIdx.mk [0] [[0, 0, 1, 1]] [[0, 1, 0, 1]]).j,
       row.length = outP 2 1 0 1 * outQ 2 1 0 1) ∧
     (∀ c < 1, ∀ r < 1, ∀ s < 1,
       (Im2colIdx.mk [0] [[0, 0, 1, 1]] [[0, 1, 0, 1]]).k.getD
         (c * (1 * 1) + (r * 1 + s)) 0 = c) ∧
     (∀ c < 1, ∀ r < 1, ∀ s < 1, ∀ p < outP 2 1 0 1, ∀ q < outQ 2 1 0 1,
       ((Im2colIdx.mk [0] [[0, 0, 1, 1]] [[0, 1, 0, 1]]).i.getD
         (c * (1 * 1) + (r * 1 + s)) []).getD (p * outQ 2 1 0 1 + q) 0 = r + 1 * p ∧
       ((Im2colIdx.mk [0] [[0, 0, 1, 1]] [[0, 1, 0, 1]]).j.getD
         (c * (1 * 1) + (r * 1 + s)) []).getD (p * outQ 2 1 0 1 + q) 0 = s + 1 * q) ∧
     (∀ N' K1' K2' : ℕ, get_im2col_indices (N', 1, 2, 2) (K1', K2', 1, 1) 1 1 0 0 =
       some ⟨[0], [[0, 0, 1, 1]], [[0, 1, 0, 1]]⟩)) :=
  ⟨by decide,
   C5_index_arrays 1 1 2 2 1 1 1 1 1 1 0 0 ⟨[0], [[0, 0, 1, 1]], [[0, 1, 0, 1]]⟩
     (by decide) (by decide) (by decide)⟩

/-! ### C6 -/

theorem filter_to_2d_length (F : Tensor4) (K C R S : ℕ) (hF : F.shape = (K, C, R, S)) :
    (filter_to_2d F).length = K := by
  simp only [filter_to_2d, hF, List.length_map, List.length_range]

theorem filter_to_2d_row_length (F : Tensor4) (K C R S : ℕ) (hF : F.shape = (K, C, R, S)) :
    ∀ row ∈ filter_to_2d F, row.length = C * (R * S) := by
  intro row hrow
  simp only [filter_to_2d, hF, List.mem_map] at hrow
  obtain ⟨kk, _, rfl⟩ := hrow
  have hinner : ∀ c ∈ List.range C, ((List.range R).flatMap fun r =>
      (List.range S).map fun s => F.entry kk c r s).length = R * S := by
    intro c _
    rw [flatMap_length_const _ _ S
      (fun r _ => by rw [List.length_map, List.length_range]), List.length_range]
  rw [flatMap_length_const _ _ (R * S) hinner, List.length_range]

theorem filter_to_2d_entry (F : Tensor4) (K C R S kk c r s : ℕ)
    (hF : F.shape = (K, C, R, S)) (hk : kk < K) (hc : c < C) (hr : r < R) (hs : s < S) :
    ((filter_to_2d F).getD kk []).getD (c * (R * S) + (r * S + s)) 0 =
      F.entry kk c r s := by
  have hrowk : (filter_to_2d F).getD kk [] = (List.range C).flatMap fun c =>
      (List.range R).flatMap fun r => (List.range S).map fun s => F.entry kk c r s := by
    rw [List.getD_eq_getElem?_getD]
    simp only [filter_to_2d, hF, List.getElem?_map, List.getElem?_range, hk, if_pos]
    rfl
  have hinner : ∀ c' ∈ List.range C, ((List.range R).flatMap fun r =>
      (List.range S).map fun s => F.entry kk c' r s).length = R * S := by
    intro c' _
    rw [flatMap_length_const _ _ S
      (fun r _ => by rw [List.length_map, List.length_range]), List.length_range]
  rw [hrowk, List.getD_eq_getElem?_getD,
    flatMap_getElem? (List.range C) _ (R * S) c (r * S + s) c hinner
      (block_lt R S r s hr hs) (by simp [List.getElem?_range, hc]),
    flatMap_getElem? (List.range R) _ S r s r
      (fun r' _ => by rw [List.length_map, List.length_range]) hs
      (by simp [List.getElem?_range, hr]),
    List.getElem?_map]
  simp [List.getElem?_range, hs]

/-- C6: `filter2d_to_orig (filter_to_2d F) (R, S)` reproduces `F`
exactly: same shape `(K, C, R, S)` (the `-1` axis is re-inferred as `C`)
and same entries. -/
theorem C6_filter_roundtrip (F : Tensor4) (K C R S : ℕ) (hF : F.shape = (K, C, R, S))
    (hK : 0 < K) (hR : 0 < R) (hS : 0 < S) :
    (filter2d_to_orig (filter_to_2d F) (R, S)).shape = (K, C, R, S) ∧
    ∀ kk < K, ∀ c < C, ∀ r < R, ∀ s < S,
      (filter2d_to_orig (filter_to_2d F) (R, S)).entry kk c r s = F.entry kk c r s := by
  have hlen := filter_to_2d_length F K C R S hF
  have hhead : ((filter_to_2d F).headD []).length = C * (R * S) := by
    have hmem : (filter_to_2d F).headD [] ∈ filter_to_2d F := by
      cases h : filter_to_2d F with
      | nil => rw [h] at hlen; simp at hlen; omega
      | cons a l => simp
    exact filter_to_2d_row_length F K C R S hF _ hmem
  constructor
  · show ((filter_to_2d F).length,
      (filter_to_2d F).length * ((filter_to_2d F).headD []).length /
        ((filter_to_2d F).length * (R * S)), R, S) = (K, C, R, S)
    rw [hlen, hhead, show K * (C * (R * S)) = K * (R * S) * C by ring,
      Nat.mul_div_cancel_left C (Nat.mul_pos hK (Nat.mul_pos hR hS))]
  · intro kk hk c hc r hr s hs
    show ((filter_to_2d F).getD kk []).getD (c * (R * S) + r * S + s) 0 =
      F.entry kk c r s
    rw [Nat.add_assoc]
    exact filter_to_2d_entry F K C R S kk c r s hF hk hc hr hs

/-- C6, witness: the round trip at `F = arange(8).reshape(2,1,2,2)`. -/
theorem C6_filter_roundtrip_witness :
    (filter2d_to_orig (filter_to_2d
      ⟨(2, 1, 2, 2), fun kk c r s => ((kk * 4 + c * 4 + r * 2 + s : ℕ) : ℤ)⟩)
      (2, 2)).shape = (2, 1, 2, 2) ∧
    ∀ kk < 2, ∀ c < 1, ∀ r < 2, ∀ s < 2,
      (filter2d_to_orig (filter_to_2d
        ⟨(2, 1, 2, 2), fun kk c r s => ((kk * 4 + c * 4 + r * 2 + s : ℕ) : ℤ)⟩)
        (2, 2)).entry kk c r s =
      Tensor4.entry ⟨(2, 1, 2, 2), fun kk c r s => ((kk * 4 + c * 4 + r * 2 + s : ℕ) : ℤ)⟩
        kk c r s :=
  C6_filter_roundtrip
    ⟨(2, 1, 2, 2), fun kk c r s => ((kk * 4 + c * 4 + r * 2 + s : ℕ) : ℤ)⟩
    2 1 2 2 rfl (by decide) (by decide) (by decide)

/-! ### C7 -/

/-- C7: on a valid configuration `data_to_2d` returns a matrix of shape
`(C·R·S, N·P·Q)` with `P = (H − R + 2·ph)/sh + 1` and
`Q = (W − S + 2·pw)/sw + 1`, and `filter_to_2d` returns a matrix of
shape `(K, C·R·S)`. -/
theorem C7_shape_contract (D F : Tensor4) (N C H W K R S sh sw ph pw : ℕ)
    (M : List (List ℤ))
    (hD : D.shape = (N, C, H, W)) (hF : F.shape = (K, C, R, S))
    (hRH : R ≤ H + 2 * ph) (hSW : S ≤ W + 2 * pw)
    (hdvd1 : sh ∣ (H + 2 * ph - R)) (hdvd2 : sw ∣ (W + 2 * pw - S))
    (hM : data_to_2d D F sh sw ph pw = some M) :
    M.length = C * (R * S) ∧
    (∀ row ∈ M, row.length = N * (outP H R ph sh * outQ W S pw sw)) ∧
    (filter_to_2d F).length = K ∧
    (∀ row ∈ filter_to_2d F, row.length = C * (R * S)) := by
  obtain ⟨h1, h2⟩ := data_to_2d_assert D F N C H W K C R S sh sw ph pw hD hF M hM
  exact ⟨data_to_2d_length D F N C H W K C R S sh sw ph pw hD hF h1 h2 M hM,
    data_to_2d_row_length D F N C H W K C R S sh sw ph pw hD hF h1 h2 M hM,
    filter_to_2d_length F K C R S hF,
    filter_to_2d_row_length F K C R S hF⟩

/-- C7, witness: shapes at `D = arange(4).reshape(1,1,2,2)` with a
`1 × 1` kernel at stride `1`. -/
theorem C7_shape_contract_witness :
    data_to_2d dataA4 filterOne 1 1 0 0 = some [[0, 1, 2, 3]] ∧
    ([[(0 : ℤ), 1, 2, 3]].length = 1 * (1 * 1) ∧
     (∀ row ∈ [[(0 : ℤ), 1, 2, 3]], row.length = 1 * (outP 2 1 0 1 * outQ 2 1 0 1)) ∧
     (filter_to_2d filterOne).length = 1 ∧
     (∀ row ∈ filter_to_2d filterOne, row.length = 1 * (1 * 1))) :=
  ⟨by decide,
   C7_shape_contract dataA4 filterOne 1 1 2 2 1 1 1 1 1 0 0 [[0, 1, 2, 3]]
     rfl rfl (by decide) (by decide) (by decide) (by decide) (by decide)⟩

/-! ### C8 -/

/-- Tensor `np.arange(54).reshape(2,3,3,3)`, the data of the docstring example. -/
def dataEx : Tensor4 :=
  ⟨(2, 3, 3, 3), fun n c y x => ((n * 27 + c * 9 + y * 3 + x : ℕ) : ℤ)⟩

/-- C8: the docstring examples.  `data_to_2d` on `arange(54).reshape(2,3,3,3)`
with `arange(24).reshape(2,3,2,2)`, stride `(1,1)`, padding `(0,0)`
reproduces the documented `12 × 8` matrix, and `filter_to_2d` on
`arange(24).reshape(2,3,2,2)` the documented `2 × 12` matrix. -/
theorem C8_doctest :
    data_to_2d dataEx filtersEx 1 1 0 0 = some
      [[0, 1, 3, 4, 27, 28, 30, 31],
       [1, 2, 4, 5, 28, 29, 31, 32],
       [3, 4, 6, 7, 30, 31, 33, 34],
       [4, 5, 7, 8, 31, 32, 34, 35],
       [9, 10, 12, 13, 36, 37, 39, 40],
       [10, 11, 13, 14, 37, 38, 40, 41],
       [12, 13, 15, 16, 39, 40, 42, 43],
       [13, 14, 16, 17, 40, 41, 43, 44],
       [18, 19, 21, 22, 45, 46, 48, 49],
       [19, 20, 22, 23, 46, 47, 49, 50],
       [21, 22, 24, 25, 48, 49, 51, 52],
       [22, 23, 25, 26, 49, 50, 52, 53]] ∧
    filter_to_2d filtersEx =
      [[0, 1, 2, 3, 4, 5, 6, 7, 8, 9, 10, 11],
       [12, 13, 14, 15, 16, 17, 18, 19, 20, 21, 22, 23]] := by
  exact ⟨by decide, by decide⟩

/-! ### C10 -/

/-- C10: whenever `get_im2col_indices` succeeds (strides positive, kernel
no larger than the padded plane), every returned index is in bounds for
the padded tensor: `k` entries below `C`, `i` entries below
`H + 2·padding_h`, `j` entries below `W + 2·padding_w` — so the gather of
`data_to_2d` and the scatter of `data2d_to_orig` never index out of
range. -/
theorem C10_index_bounds (N C H W K1 K2 R S sh sw ph pw : ℕ) (idx : Im2colIdx)
    (hsh : 0 < sh) (hsw : 0 < sw) (hRH : R ≤ H + 2 * ph) (hSW : S ≤ W + 2 * pw)
    (hidx : get_im2col_indices (N, C, H, W) (K1, K2, R, S) sh sw ph pw = some idx) :
    (∀ e ∈ idx.k, e < C) ∧
    (∀ row ∈ idx.i, ∀ e ∈ row, e < H + 2 * ph) ∧
    (∀ row ∈ idx.j, ∀ e ∈ row, e < W + 2 * pw) := by
  obtain ⟨h1, h2⟩ := get_im2col_indices_assert N C H W K1 K2 R S sh sw ph pw idx hidx
  rw [get_im2col_indices_some N C H W K1 K2 R S sh sw ph pw h1 h2] at hidx
  obtain rfl : _ = idx := Option.some.inj hidx
  refine ⟨?_, ?_, ?_⟩
  · intro e he
    have he' : e ∈ npArange C := mem_npRepeat he
    simpa [npArange, List.mem_range] using he'
  · intro row hrow e he
    have hrow' : row ∈ iIdx C R S (outP H R ph sh) (outQ W S pw sw) sh := hrow
    rw [iIdx, List.mem_map] at hrow'
    obtain ⟨v, hv, rfl⟩ := hrow'
    have hvR : v < R := by
      have h' := mem_npRepeat (mem_npTile hv)
      simpa [npArange, List.mem_range] using h'
    rw [List.mem_map] at he
    obtain ⟨t, ht, rfl⟩ := he
    rw [i1Idx, List.mem_map] at ht
    obtain ⟨u, hu, rfl⟩ := ht
    have huP : u < (H + 2 * ph - R) / sh + 1 := by
      have h' := mem_npRepeat hu
      simpa [npArange, List.mem_range] using h'
    have hmul : sh * u ≤ sh * ((H + 2 * ph - R) / sh) :=
      Nat.mul_le_mul_left sh (by omega)
    have hdivle : sh * ((H + 2 * ph - R) / sh) ≤ H + 2 * ph - R := by
      rw [Nat.mul_comm]; exact Nat.div_mul_le_self _ _
    omega
  · intro row hrow e he
    have hrow' : row ∈ jIdx C R S (outP H R ph sh) (outQ W S pw sw) sw := hrow
    rw [jIdx, List.mem_map] at hrow'
    obtain ⟨v, hv, rfl⟩ := hrow'
    have hvS : v < S := by
      have h' := mem_npTile hv
      simpa [npArange, List.mem_range] using h'
    rw [List.mem_map] at he
    obtain ⟨t, ht, rfl⟩ := he
    rw [j1Idx, List.mem_map] at ht
    obtain ⟨u, hu, rfl⟩ := ht
    have huQ : u < (W + 2 * pw - S) / sw + 1 := by
      have h' := mem_npTile hu
      simpa [npArange, List.mem_range] using h'
    have hmul : sw * u ≤ sw * ((W + 2 * pw - S) / sw) :=
      Nat.mul_le_mul_left sw (by omega)
    have hdivle : sw * ((W + 2 * pw - S) / sw) ≤ W + 2 * pw - S := by
      rw [Nat.mul_comm]; exact Nat.div_mul_le_self _ _
    omega

/-- C10, witness: the bounds at a `(1,1,2,2)` input with a `1 × 1`
kernel at stride `1`, zero padding. -/
theorem C10_index_bounds_witness :
    get_im2col_indices (1, 1, 2, 2) (1, 1, 1, 1) 1 1 0 0 =
      some ⟨[0], [[0, 0, 1, 1]], [[0, 1, 0, 1]]⟩ ∧
    ((∀ e ∈ (Im2colIdx.mk [0] [[0, 0, 1, 1]] [[0, 1, 0, 1]]).k, e < 1) ∧
     (∀ row ∈ (Im2colIdx.mk [0] [[0, 0, 1, 1]] [[0, 1, 0, 1]]).i,
       ∀ e ∈ row, e < 2 + 2 * 0) ∧
     (∀ row ∈ (Im2colIdx.mk [0] [[0, 0, 1, 1]] [[0, 1, 0, 1]]).j,
       ∀ e ∈ row, e < 2 + 2 * 0)) :=
  ⟨by decide,
   C10_index_bounds 1 1 2 2 1 1 1 1 1 1 0 0 ⟨[0], [[0, 0, 1, 1]], [[0, 1, 0, 1]]⟩
     (by decide) (by decide) (by decide) (by decide) (by decide)⟩

end Im2col
